import Mathlib

/-!
Shallow embedding of the t3tree resolver (`main.go`): the in-memory
hierarchy index (parent map, root set, domain map, associated rows),
its loaders, the root/descendant/domain operations, the selection
combinator from `main`, and the URL output formatter.

Go maps are embedded as association lists with insert-or-replace
(`insertMap`), so iteration order is the list order; the partial loops
(`root`'s ascent, `children`'s recursion) are embedded with explicit
fuel, `none` meaning the Go code would still be running.
-/

/-- Association-list lookup, the embedding of Go's `m[k]` (with `ok`). -/
def lookupMap {β : Type} : List (Int × β) → Int → Option β
  | [], _ => none
  | (k, v) :: rest, x => if k = x then some v else lookupMap rest x

/-- Association-list insert-or-replace, the embedding of Go's `m[k] = v`. -/
def insertMap {β : Type} : List (Int × β) → Int → β → List (Int × β)
  | [], k, v => [(k, v)]
  | e :: rest, k, v => if e.1 = k then (k, v) :: rest else e :: insertMap rest k v

/-- The `mysql` struct of main.go (minus the external DB handle):
`pages` maps uid to pid, `domains` maps root id to domain name,
`assoc` maps uid to the ad-hoc query's extra columns, `roots` lists
the uids flagged (or defaulted) as site roots. -/
structure Mysql where
  pages : List (Int × Int)
  domains : List (Int × String)
  assoc : List (Int × List String)
  roots : List Int
deriving DecidableEq

/-- The freshly constructed state of `newMysql`: all maps empty. -/
def initMysql : Mysql := ⟨[], [], [], []⟩

/-- `isRoot`: linear scan of the roots slice. -/
def Mysql.isRoot (m : Mysql) (pid : Int) : Bool :=
  m.roots.contains pid

/-- `domain`: map lookup, Go's zero value `""` when the key is absent. -/
def Mysql.domain (m : Mysql) (pid : Int) : String :=
  (lookupMap m.domains pid).getD ""

/-- One row of `loadPages`: `m.pages[uid] = pid` and, when the row is
flagged as root or has `pid == 0`, append uid to `roots`. -/
def loadPagesStep (m : Mysql) (row : Int × Int × Bool) : Mysql :=
  { m with
    pages := insertMap m.pages row.1 row.2.1,
    roots := if row.2.2 || row.2.1 == 0 then m.roots ++ [row.1] else m.roots }

/-- `loadPages` folded over the rows the pages relation yields. -/
def loadPagesFrom (m : Mysql) (rows : List (Int × Int × Bool)) : Mysql :=
  rows.foldl loadPagesStep m

/-- `loadPages` run on the fresh state of `newMysql`. -/
def loadPages (rows : List (Int × Int × Bool)) : Mysql :=
  loadPagesFrom initMysql rows

/-- One row of `loadDomains` in main.go: when the root id is already
bound the row is skipped — the `&& !forced` part of the condition is
commented out in the source, so the forced flag is ignored. -/
def loadDomainsStep (m : Mysql) (row : Int × String × Bool) : Mysql :=
  if (lookupMap m.domains row.1).isSome then m
  else { m with domains := insertMap m.domains row.1 row.2.1 }

/-- `loadDomains` folded over the rows (already sorted by the relation). -/
def loadDomainsFrom (m : Mysql) (rows : List (Int × String × Bool)) : Mysql :=
  rows.foldl loadDomainsStep m

/-- `query(sql, nassoc)`: every well-shaped row appends its uid and
records its extra columns in `assoc` (overwriting); a row whose column
count differs from `nassoc` makes Scan fail, returning the error while
keeping the side effects already performed. -/
def queryRun (m : Mysql) (nassoc : Nat) :
    List (Int × List String) → List Int → Mysql × Option (List Int)
  | [], acc => (m, some acc)
  | row :: rest, acc =>
      if row.2.length = nassoc then
        queryRun { m with assoc := insertMap m.assoc row.1 row.2 } nassoc rest
          (acc ++ [row.1])
      else (m, none)

/-- The ascent loop of `root`: step to the parent, `0` on a missing
entry, stop at the first root; fuel bounds the number of iterations,
`none` meaning the Go loop is still running. -/
def rootGo (m : Mysql) : Nat → Int → Option Int
  | 0, _ => none
  | f + 1, pid =>
      match lookupMap m.pages pid with
      | none => some 0
      | some q => if m.isRoot q then some q else rootGo m f q

/-- `root(pid)`: immediately return a root argument, otherwise ascend. -/
def rootFuel (m : Mysql) (f : Nat) (pid : Int) : Option Int :=
  if m.isRoot pid then some pid else rootGo m f pid

/-- The scan of `children(pid, pids)` over the entries of the pages
map: each entry whose pid matches is appended and recursively expanded
by `step` (in main.go, the recursive `children` call on the matched
uid, which rescans the whole map). -/
def childrenGo (step : Int → List Int → Option (List Int)) :
    List (Int × Int) → Int → List Int → Option (List Int)
  | [], _, acc => some acc
  | (c, p) :: rest, pid, acc =>
      if p = pid then
        match step c (acc ++ [c]) with
        | none => none
        | some acc2 => childrenGo step rest pid acc2
      else childrenGo step rest pid acc

/-- `children(pid, pids)` with fuel bounding the recursion depth
(`none` meaning the Go recursion would still be running). -/
def childrenF (m : Mysql) : Nat → Int → List Int → Option (List Int)
  | 0, _, _ => none
  | f + 1, pid, acc =>
      childrenGo (fun c acc2 => childrenF m f c acc2) m.pages pid acc

/-- One level of the children scan, expanding matches at fuel `f`. -/
def childrenL (m : Mysql) (f : Nat) : List (Int × Int) → Int → List Int → Option (List Int) :=
  childrenGo (fun c acc2 => childrenF m f c acc2)

/-- The explicit-id half of main's selection logic (`if *pid > 0`). -/
def combineExplicit (m : Mysql) (f : Nat) (pid : Int) (cf rf : Bool) :
    Option (List Int) :=
  if pid > 0 then do
    let u ← if cf then childrenF m f pid [] else some []
    let u ← if rf then do
        let r ← rootFuel m f pid
        some (u ++ [r])
      else some u
    some (if !cf && !rf then u ++ [pid] else u)
  else some []

/-- The query-ids half of main's selection logic (`if *query != ""`),
given the uids accumulated by the explicit-id half. -/
def combineQuery (m : Mysql) (f : Nat) (uids qids : List Int) (cf rf : Bool) :
    Option (List Int) := do
  let u ← if cf then qids.foldlM (fun acc q => childrenF m f q acc) uids
    else some uids
  let u ← if rf then
      qids.foldlM (fun acc q => do
        let r ← rootFuel m f q
        some (acc ++ [r])) u
    else some u
  some (if !cf && !rf then qids else u)

/-- Main's whole selection combinator: explicit id then optional query
ids, under the children/roots transform flags. -/
def selection (m : Mysql) (f : Nat) (pid : Int) (queryIds : Option (List Int))
    (cf rf : Bool) : Option (List Int) := do
  let u ← combineExplicit m f pid cf rf
  match queryIds with
  | none => some u
  | some qids => combineQuery m f u qids cf rf

/-- Quoting of an associated CSV field: wrap in double quotes, escaping
embedded double quotes as in main.go's strings.Replace. -/
def quoteField (s : String) : String :=
  "\"" ++ s.replace "\"" "\\\"" ++ "\""

/-- The URL printed for a resolved id. -/
def urlFor (domain : String) (uid : Int) : String :=
  "https://" ++ domain ++ "/index.php?id=" ++ toString uid

/-- strings.Join with a comma. -/
def joinComma (l : List String) : String :=
  String.intercalate "," l

/-- One iteration of main's URL-mode output loop over `(fields, lines)`:
resolve the root, skip silently on an unbound domain, and otherwise
write field 0 and the id's associated fields into the shared buffer
before emitting the joined row (`nassoc = 0` emits the bare URL). -/
def urlStep (m : Mysql) (f : Nat) (nassoc : Nat)
    (st : List String × List String) (uid : Int) :
    Option (List String × List String) :=
  match rootFuel m f uid with
  | none => none
  | some rid =>
      let d := m.domain rid
      if d = "" then some st
      else if 0 < nassoc then
        let vals := (lookupMap m.assoc uid).getD []
        let fields1 := st.1.set 0 ("\"" ++ urlFor d uid ++ "\"")
        let fields2 := (List.range vals.length).foldl
          (fun fs i => fs.set (i + 1) (quoteField ((vals.get? i).getD ""))) fields1
        some (fields2, st.2 ++ [joinComma fields2])
      else some (st.1, st.2 ++ [urlFor d uid])

/-- Main's URL-mode output: the fields buffer is allocated once
(`nassoc + 1` empty strings) and reused across iterations. -/
def urlLines (m : Mysql) (f nassoc : Nat) (uids : List Int) : Option (List String) :=
  (uids.foldlM (urlStep m f nassoc) (List.replicate (nassoc + 1) "", [])).map Prod.snd

/-- `x` ascends to `y` by one or more parent-pointer hops in `m.pages`. -/
inductive Reaches (m : Mysql) : Int → Int → Prop
  | single {x y : Int} : lookupMap m.pages x = some y → Reaches m x y
  | cons {x z y : Int} : lookupMap m.pages x = some z → Reaches m z y → Reaches m x y

/-- Modelled from the spec: `root(id)` returns `id` if `isRoot(id)`;
otherwise it repeatedly follows `parentMap[id]` until an id in the root
set is reached, returning it, and returns the sentinel `0` as soon as
the current id has no entry in the parent map. -/
inductive RootSpec (m : Mysql) : Int → Int → Prop
  | isroot {x : Int} : m.isRoot x = true → RootSpec m x x
  | broken {x : Int} : m.isRoot x = false → lookupMap m.pages x = none → RootSpec m x 0
  | step {x y r : Int} : m.isRoot x = false → lookupMap m.pages x = some y →
      RootSpec m y r → RootSpec m x r

/-- The ascent from `x` enters the id set `S` (possibly after some
non-root parent hops). -/
inductive AscentEnters (m : Mysql) (S : List Int) : Int → Prop
  | here {x : Int} : x ∈ S → AscentEnters m S x
  | later {x y : Int} : m.isRoot x = false → lookupMap m.pages x = some y →
      AscentEnters m S y → AscentEnters m S x

/-! ### Concrete loaded states used as witnesses -/

/-- A three-page chain 3 → 2 → 1 with root 1 (its pid is 0). -/
def mEx : Mysql := loadPages [(1, 0, false), (2, 1, false), (3, 2, false)]

/-- Two pages forming a parent cycle 1 → 2 → 1 with no root. -/
def mCyc : Mysql := loadPages [(1, 2, false), (2, 1, false)]

/-- A loaded map in which id 0 itself has a parent entry: page 0 has
parent 5, and page 5 has pid 0 (hence is a root). -/
def mZero : Mysql := loadPages [(0, 5, false), (5, 0, false)]

/-- Pages 2 → 1 (root 1 with domain), one associated row recorded for
id 1 by an ad-hoc query with one extra column. -/
def mOut : Mysql :=
  (queryRun (loadDomainsFrom (loadPages [(1, 0, true), (2, 1, false)])
    [(1, "ex.com", false)]) 1 [(1, ["x"])] []).1


/-! ### Association-list map lemmas -/

theorem lookupMap_insert {β : Type} (l : List (Int × β)) (k : Int) (v : β) (x : Int) :
    lookupMap (insertMap l k v) x = if k = x then some v else lookupMap l x := by
  induction l with
  | nil => simp [insertMap, lookupMap]
  | cons e rest ih =>
      by_cases hek : e.1 = k
      · simp only [insertMap, if_pos hek]
        by_cases hkx : k = x
        · simp [lookupMap, hkx]
        · have hex : ¬ e.1 = x := by rw [hek]; exact hkx
          simp [lookupMap, hkx, hex]
      · simp only [insertMap, if_neg hek]
        by_cases hex : e.1 = x
        · have hkx : ¬ k = x := by
            intro h
            exact hek (by rw [hex, h])
          simp [lookupMap, hex, hkx]
        · simp [lookupMap, hex, ih]

theorem mem_of_lookup {β : Type} {l : List (Int × β)} {x : Int} {y : β}
    (h : lookupMap l x = some y) : (x, y) ∈ l := by
  induction l with
  | nil => simp [lookupMap] at h
  | cons e rest ih =>
      by_cases hex : e.1 = x
      · simp only [lookupMap, if_pos hex] at h
        have h2 : e.2 = y := Option.some.inj h
        have he : (x, y) = e := by rw [← hex, ← h2]
        rw [he]
        exact List.mem_cons_self _ _
      · simp only [lookupMap, if_neg hex] at h
        exact List.mem_cons_of_mem _ (ih h)

theorem lookup_of_mem {β : Type} {l : List (Int × β)} {x : Int} {y : β}
    (hnd : (l.map Prod.fst).Nodup) (h : (x, y) ∈ l) : lookupMap l x = some y := by
  induction l with
  | nil => simp at h
  | cons e rest ih =>
      rw [List.map_cons] at hnd
      have hnd2 := List.nodup_cons.mp hnd
      rcases List.mem_cons.mp h with he | hrest
      · rw [← he]
        simp [lookupMap]
      · have hx : x ∈ rest.map Prod.fst := List.mem_map_of_mem Prod.fst hrest
        have hex : ¬ e.1 = x := fun hc => hnd2.1 (by rw [hc]; exact hx)
        simp only [lookupMap, if_neg hex]
        exact ih hnd2.2 hrest

theorem isRoot_iff_mem (m : Mysql) (x : Int) : m.isRoot x = true ↔ x ∈ m.roots := by
  simp [Mysql.isRoot]

/-! ### Reachability lemmas over the parent map -/

theorem Reaches.snoc {m : Mysql} {a b c : Int} (h : Reaches m a b)
    (hbc : lookupMap m.pages b = some c) : Reaches m a c := by
  induction h with
  | single h1 => exact Reaches.cons h1 (Reaches.single hbc)
  | cons h1 _ ih => exact Reaches.cons h1 (ih hbc)

theorem reaches_comp {m : Mysql} {z c c' : Int} (h1 : Reaches m z c)
    (h2 : Reaches m z c') : c = c' ∨ Reaches m c c' ∨ Reaches m c' c := by
  induction h1 generalizing c' with
  | single hz =>
      cases h2 with
      | single hz' => exact Or.inl (Option.some.inj (hz.symm.trans hz'))
      | cons hz' hw =>
          have he := Option.some.inj (hz.symm.trans hz')
          exact Or.inr (Or.inl (by rw [he]; exact hw))
  | cons hz hw ih =>
      cases h2 with
      | single hz' =>
          have he := Option.some.inj (hz.symm.trans hz')
          exact Or.inr (Or.inr (by rw [← he]; exact hw))
      | cons hz' hw' =>
          have he := Option.some.inj (hz.symm.trans hz')
          rw [← he] at hw'
          exact ih hw'

theorem reaches_rank {m : Mysql} {rank : Int → Nat}
    (hr : ∀ a b, lookupMap m.pages a = some b → rank b < rank a)
    {x y : Int} (h : Reaches m x y) : rank y < rank x := by
  induction h with
  | single h1 => exact hr _ _ h1
  | cons h1 _ ih => exact ih.trans (hr _ _ h1)

theorem acyclic_of_rank (m : Mysql) (rank : Int → Nat)
    (hr : ∀ a b, lookupMap m.pages a = some b → rank b < rank a) :
    ∀ z, ¬ Reaches m z z := by
  intro z h
  exact lt_irrefl _ (reaches_rank hr h)

theorem reach_from_sibling {m : Mysql} {a b p : Int}
    (hacyc : ∀ z, ¬ Reaches m z z)
    (ha : lookupMap m.pages a = some p) (hb : lookupMap m.pages b = some p)
    (h : Reaches m a b) : False := by
  cases h with
  | single h1 =>
      have hbp : b = p := Option.some.inj (h1.symm.trans ha)
      subst hbp
      exact hacyc b (Reaches.single hb)
  | cons h1 hw =>
      have hzp := Option.some.inj (h1.symm.trans ha)
      have hw2 : Reaches m p b := by rw [← hzp]; exact hw
      exact hacyc p (hw2.snoc hb)

/-! ### Root-resolution lemmas -/

theorem rootGo_result {m : Mysql} :
    ∀ {f : Nat} {x r : Int}, rootGo m f x = some r → r = 0 ∨ m.isRoot r = true := by
  intro f
  induction f with
  | zero => intro x r h; simp [rootGo] at h
  | succ g ih =>
      intro x r h
      simp only [rootGo] at h
      split at h
      · exact Or.inl (Option.some.inj h).symm
      · split at h
        · rename_i hq
          exact Or.inr (by rw [← Option.some.inj h]; exact hq)
        · exact ih h

theorem rootFuel_result {m : Mysql} {f : Nat} {x r : Int}
    (h : rootFuel m f x = some r) : r = 0 ∨ m.isRoot r = true := by
  rw [rootFuel] at h
  by_cases hx : m.isRoot x = true
  · rw [if_pos hx] at h
    exact Or.inr (by rw [← Option.some.inj h]; exact hx)
  · rw [if_neg hx] at h
    exact rootGo_result h

theorem rootFuel_of_isRoot {m : Mysql} {x : Int} (h : m.isRoot x = true) (f : Nat) :
    rootFuel m f x = some x := by
  rw [rootFuel, if_pos h]

/-! ### Descendant-walk lemmas -/

theorem childrenL_nil (m : Mysql) (f : Nat) (pid : Int) (acc : List Int) :
    childrenL m f [] pid acc = some acc :=
  rfl

theorem childrenL_cons (m : Mysql) (f : Nat) (c p : Int) (rest : List (Int × Int))
    (pid : Int) (acc : List Int) :
    childrenL m f ((c, p) :: rest) pid acc =
      if p = pid then
        match childrenF m f c (acc ++ [c]) with
        | none => none
        | some acc2 => childrenL m f rest pid acc2
      else childrenL m f rest pid acc :=
  rfl

theorem childrenFL_append (m : Mysql) (f : Nat) :
    (∀ pid acc, childrenF m f pid acc = (childrenF m f pid []).map (fun d => acc ++ d)) ∧
    (∀ es pid acc, childrenL m f es pid acc =
      (childrenL m f es pid []).map (fun d => acc ++ d)) := by
  induction f using Nat.strong_induction_on with
  | _ f IH =>
    have hF : ∀ pid acc,
        childrenF m f pid acc = (childrenF m f pid []).map (fun d => acc ++ d) := by
      intro pid acc
      cases f with
      | zero => rfl
      | succ g =>
          show childrenL m g m.pages pid acc = _
          exact (IH g (Nat.lt_succ_self g)).2 m.pages pid acc
    refine ⟨hF, ?_⟩
    intro es
    induction es with
    | nil => intro pid acc; simp [childrenL_nil]
    | cons e rest IHes =>
        intro pid acc
        obtain ⟨c, p⟩ := e
        rw [childrenL_cons, childrenL_cons]
        by_cases hp : p = pid
        · rw [if_pos hp, if_pos hp]
          rw [hF c (acc ++ [c]), hF c ([] ++ [c])]
          cases hd : childrenF m f c [] with
          | none => rfl
          | some d =>
              simp only [Option.map_some']
              rw [IHes pid ((acc ++ [c]) ++ d), IHes pid (([] ++ [c]) ++ d)]
              cases childrenL m f rest pid [] with
              | none => rfl
              | some d2 => simp
        · rw [if_neg hp, if_neg hp]
          exact IHes pid acc

theorem childrenF_append (m : Mysql) (f : Nat) (pid : Int) (acc : List Int) :
    childrenF m f pid acc = (childrenF m f pid []).map (fun d => acc ++ d) :=
  (childrenFL_append m f).1 pid acc

theorem childrenL_append (m : Mysql) (f : Nat) (es : List (Int × Int)) (pid : Int)
    (acc : List Int) :
    childrenL m f es pid acc = (childrenL m f es pid []).map (fun d => acc ++ d) :=
  (childrenFL_append m f).2 es pid acc

theorem childrenL_cons_some (m : Mysql) {f : Nat} {c p : Int} {rest : List (Int × Int)}
    {pid : Int} {L : List Int} (hp : p = pid)
    (h : childrenL m f ((c, p) :: rest) pid [] = some L) :
    ∃ Δ Δ2, childrenF m f c [] = some Δ ∧ childrenL m f rest pid [] = some Δ2 ∧
      L = c :: (Δ ++ Δ2) := by
  subst hp
  rw [childrenL_cons, if_pos rfl] at h
  split at h
  · exact absurd h (by simp)
  · rename_i acc2 harm
    rw [childrenF_append] at harm
    cases hd : childrenF m f c [] with
    | none => rw [hd] at harm; simp at harm
    | some d =>
        rw [hd] at harm
        simp only [Option.map_some', Option.some.injEq] at harm
        rw [childrenL_append] at h
        cases hd2 : childrenL m f rest p [] with
        | none => rw [hd2] at h; simp at h
        | some d2 =>
            rw [hd2] at h
            simp only [Option.map_some', Option.some.injEq] at h
            exact ⟨d, d2, rfl, rfl, by rw [← h, ← harm]; simp⟩

theorem childrenL_sound (m : Mysql) (hkeys : (m.pages.map Prod.fst).Nodup) :
    ∀ f es pid L, childrenL m f es pid [] = some L →
      ∀ z ∈ L, ∃ c, (c, pid) ∈ es ∧ (z = c ∨ Reaches m z c) := by
  intro f
  induction f using Nat.strong_induction_on with
  | _ f IH =>
    intro es
    induction es with
    | nil =>
        intro pid L h z hz
        rw [childrenL_nil] at h
        obtain rfl := Option.some.inj h
        simp at hz
    | cons e rest IHes =>
        intro pid L h z hz
        obtain ⟨c, p⟩ := e
        by_cases hp : p = pid
        · obtain ⟨d, d2, hd, hd2, rfl⟩ := childrenL_cons_some m hp h
          rcases List.mem_cons.mp hz with rfl | hz2
          · exact ⟨z, by rw [hp]; exact List.mem_cons_self _ _, Or.inl rfl⟩
          · rcases List.mem_append.mp hz2 with hzd | hzd2
            · -- z is in the subtree of c: convert the recursive scan's result
              cases f with
              | zero => simp [childrenF] at hd
              | succ g =>
                  have hd' : childrenL m g m.pages c [] = some d := hd
                  obtain ⟨c2, hc2m, hc2⟩ :=
                    IH g (Nat.lt_succ_self g) m.pages c d hd' z hzd
                  have hlk : lookupMap m.pages c2 = some c := lookup_of_mem hkeys hc2m
                  refine ⟨c, by rw [hp]; exact List.mem_cons_self _ _, Or.inr ?_⟩
                  rcases hc2 with rfl | hre
                  · exact Reaches.single hlk
                  · exact hre.snoc hlk
            · obtain ⟨c', hc', hzc'⟩ := IHes pid d2 hd2 z hzd2
              exact ⟨c', List.mem_cons_of_mem _ hc', hzc'⟩
        · rw [childrenL_cons, if_neg hp] at h
          obtain ⟨c', hc', hzc'⟩ := IHes pid L h z hz
          exact ⟨c', List.mem_cons_of_mem _ hc', hzc'⟩

theorem childrenF_sound (m : Mysql) (hkeys : (m.pages.map Prod.fst).Nodup)
    {f : Nat} {pid : Int} {L : List Int} (h : childrenF m f pid [] = some L) :
    ∀ z ∈ L, Reaches m z pid := by
  intro z hz
  cases f with
  | zero => simp [childrenF] at h
  | succ g =>
      have h' : childrenL m g m.pages pid [] = some L := h
      obtain ⟨c, hcm, hzc⟩ := childrenL_sound m hkeys g m.pages pid L h' z hz
      have hlk : lookupMap m.pages c = some pid := lookup_of_mem hkeys hcm
      rcases hzc with rfl | hre
      · exact Reaches.single hlk
      · exact hre.snoc hlk

theorem childrenL_direct (m : Mysql) :
    ∀ f es pid L, childrenL m f es pid [] = some L →
      ∀ c, (c, pid) ∈ es →
        c ∈ L ∧ ∃ d, childrenF m f c [] = some d ∧ ∀ w ∈ d, w ∈ L := by
  intro f es
  induction es with
  | nil => intro pid L _ c hc; simp at hc
  | cons e rest IHes =>
      intro pid L h c hc
      obtain ⟨c1, p1⟩ := e
      by_cases hp : p1 = pid
      · obtain ⟨d, d2, hd, hd2, rfl⟩ := childrenL_cons_some m hp h
        rcases List.mem_cons.mp hc with heq | hcr
        · have hc1 : c = c1 := congrArg Prod.fst heq
          refine ⟨?_, d, ?_, ?_⟩
          · rw [hc1]; exact List.mem_cons_self _ _
          · rw [hc1]; exact hd
          · intro w hw
            exact List.mem_cons_of_mem _ (List.mem_append_left _ hw)
        · obtain ⟨hcL, d', hd', hsub⟩ := IHes pid d2 hd2 c hcr
          exact ⟨List.mem_cons_of_mem _ (List.mem_append_right _ hcL), d', hd',
            fun w hw => List.mem_cons_of_mem _ (List.mem_append_right _ (hsub w hw))⟩
      · rw [childrenL_cons, if_neg hp] at h
        rcases List.mem_cons.mp hc with heq | hcr
        · exact absurd (congrArg Prod.snd heq).symm hp
        · exact IHes pid L h c hcr

theorem children_complete (m : Mysql) {z y : Int} (h : Reaches m z y) :
    ∀ f L, childrenF m f y [] = some L →
      z ∈ L ∧ ∃ g d, childrenF m g z [] = some d ∧ ∀ w ∈ d, w ∈ L := by
  induction h with
  | single h1 =>
      intro f L hL
      cases f with
      | zero => simp [childrenF] at hL
      | succ g =>
          have hL' : childrenL m g m.pages _ [] = some L := hL
          obtain ⟨hzL, d, hd, hsub⟩ :=
            childrenL_direct m g m.pages _ L hL' _ (mem_of_lookup h1)
          exact ⟨hzL, g, d, hd, hsub⟩
  | cons h1 _ ih =>
      intro f L hL
      obtain ⟨hwL, g, dw, hdw, hsubw⟩ := ih f L hL
      cases g with
      | zero => simp [childrenF] at hdw
      | succ g' =>
          have hdw' : childrenL m g' m.pages _ [] = some dw := hdw
          obtain ⟨hzdw, d, hd, hsub⟩ :=
            childrenL_direct m g' m.pages _ dw hdw' _ (mem_of_lookup h1)
          exact ⟨hsubw _ hzdw, g', d, hd, fun w hw => hsubw w (hsub w hw)⟩

theorem childrenL_nodup (m : Mysql) (hkeys : (m.pages.map Prod.fst).Nodup)
    (hacyc : ∀ z, ¬ Reaches m z z) :
    ∀ f es pid L, es.Sublist m.pages → childrenL m f es pid [] = some L →
      L.Nodup := by
  intro f
  induction f using Nat.strong_induction_on with
  | _ f IH =>
    intro es
    induction es with
    | nil =>
        intro pid L _ h
        rw [childrenL_nil] at h
        obtain rfl := Option.some.inj h
        exact List.nodup_nil
    | cons e rest IHes =>
        intro pid L hsub h
        obtain ⟨c, p⟩ := e
        have hsubr : rest.Sublist m.pages := List.sublist_of_cons_sublist hsub
        by_cases hp : p = pid
        · obtain ⟨d, d2, hd, hd2, rfl⟩ := childrenL_cons_some m hp h
          -- facts about the head child c
          have hcm : (c, p) ∈ m.pages := hsub.subset (List.mem_cons_self _ _)
          have hlc : lookupMap m.pages c = some pid := by
            rw [← hp]; exact lookup_of_mem hkeys hcm
          -- every element of c's expansion reaches c
          have hdre : ∀ w ∈ d, Reaches m w c := childrenF_sound m hkeys hd
          -- every element of the scan of rest belongs to some other child c'
          have hd2c : ∀ w ∈ d2, ∃ c', (c', pid) ∈ rest ∧ (w = c' ∨ Reaches m w c') :=
            childrenL_sound m hkeys f rest pid d2 hd2
          -- the keys of the scanned entries are distinct
          have hkes : (((c, p) :: rest).map Prod.fst).Nodup :=
            List.Nodup.sublist (hsub.map Prod.fst) hkeys
          rw [List.map_cons, List.nodup_cons] at hkes
          have hsib : ∀ c', (c', pid) ∈ rest → lookupMap m.pages c' = some pid ∧ c ≠ c' := by
            intro c' hc'
            refine ⟨lookup_of_mem hkeys (hsubr.subset hc'), ?_⟩
            intro hcc
            exact hkes.1 (by rw [hcc]; exact List.mem_map.mpr ⟨(c', pid), hc', rfl⟩)
          -- the head child never reappears
          have hcd : c ∉ d := fun hin => hacyc c (hdre c hin)
          have hcd2 : c ∉ d2 := by
            intro hin
            obtain ⟨c', hc', hcc'⟩ := hd2c c hin
            obtain ⟨hlc', hne⟩ := hsib c' hc'
            rcases hcc' with heq | hre
            · exact hne heq
            · exact reach_from_sibling hacyc hlc hlc' hre
          -- the two expansions are disjoint
          have hdisj : ∀ w ∈ d, w ∉ d2 := by
            intro w hw hw2
            have hwre : Reaches m w c := hdre w hw
            obtain ⟨c', hc', hcc'⟩ := hd2c w hw2
            obtain ⟨hlc', hne⟩ := hsib c' hc'
            rcases hcc' with rfl | hre
            · exact reach_from_sibling hacyc hlc' hlc hwre
            · rcases reaches_comp hwre hre with heq | hccr | hccr
              · exact hne heq
              · exact reach_from_sibling hacyc hlc hlc' hccr
              · exact reach_from_sibling hacyc hlc' hlc hccr
          -- assemble
          have hndd : d.Nodup := by
            cases f with
            | zero => simp [childrenF] at hd
            | succ g =>
                exact IH g (Nat.lt_succ_self g) m.pages c d (List.Sublist.refl _) hd
          have hndd2 : d2.Nodup := IHes pid d2 hsubr hd2
          rw [List.nodup_cons, List.mem_append, List.nodup_append]
          exact ⟨fun hor => hor.elim hcd hcd2, hndd, hndd2, hdisj⟩
        · rw [childrenL_cons, if_neg hp] at h
          exact IHes pid L hsubr h

/-! ### Root resolution versus its specification -/

theorem rootGo_spec (m : Mysql) :
    ∀ {f : Nat} {x r : Int}, m.isRoot x = false → rootGo m f x = some r →
      RootSpec m x r := by
  intro f
  induction f with
  | zero => intro x r _ h; simp [rootGo] at h
  | succ g ih =>
      intro x r hx h
      simp only [rootGo] at h
      split at h
      · rename_i hlk
        obtain rfl := Option.some.inj h
        exact RootSpec.broken hx hlk
      · rename_i q hlk
        split at h
        · rename_i hq
          obtain rfl := Option.some.inj h
          exact RootSpec.step hx hlk (RootSpec.isroot hq)
        · rename_i hq
          exact RootSpec.step hx hlk (ih (Bool.not_eq_true _ ▸ hq) h)

theorem rootFuel_spec (m : Mysql) {f : Nat} {x r : Int}
    (h : rootFuel m f x = some r) : RootSpec m x r := by
  rw [rootFuel] at h
  by_cases hx : m.isRoot x = true
  · rw [if_pos hx] at h
    obtain rfl := Option.some.inj h
    exact RootSpec.isroot hx
  · rw [if_neg hx] at h
    exact rootGo_spec m (Bool.not_eq_true _ ▸ hx) h

theorem rootSpec_fuel (m : Mysql) {x r : Int} (h : RootSpec m x r) :
    ∃ f, rootFuel m f x = some r := by
  induction h with
  | isroot hx => exact ⟨0, by rw [rootFuel, if_pos hx]⟩
  | broken hx hlk =>
      refine ⟨1, ?_⟩
      rw [rootFuel, hx]
      simp only [Bool.false_eq_true, if_false, rootGo, hlk]
  | step hx hlk hsp ih =>
      rename_i x1 y1 r1
      obtain ⟨f, hf⟩ := ih
      rw [rootFuel] at hf
      by_cases hy : m.isRoot y1 = true
      · rw [if_pos hy] at hf
        obtain rfl := Option.some.inj hf
        refine ⟨1, ?_⟩
        rw [rootFuel, hx]
        simp only [Bool.false_eq_true, if_false, rootGo, hlk, hy, if_true]
      · rw [if_neg hy] at hf
        refine ⟨f + 1, ?_⟩
        rw [rootFuel, hx]
        simp only [Bool.false_eq_true, if_false, rootGo, hlk]
        rw [if_neg hy]
        exact hf

/-! ### Divergence on rootless cycles -/

theorem rootGo_in_closed (m : Mysql) {S : List Int}
    (hS : ∀ s ∈ S, m.isRoot s = false ∧ ∃ t ∈ S, lookupMap m.pages s = some t) :
    ∀ f, ∀ s ∈ S, rootGo m f s = none := by
  intro f
  induction f with
  | zero => intro s _; rfl
  | succ g ih =>
      intro s hs
      obtain ⟨-, t, ht, hlk⟩ := hS s hs
      simp only [rootGo, hlk]
      rw [(hS t ht).1]
      simp only [Bool.false_eq_true, if_false]
      exact ih t ht

theorem rootFuel_in_closed (m : Mysql) {S : List Int}
    (hS : ∀ s ∈ S, m.isRoot s = false ∧ ∃ t ∈ S, lookupMap m.pages s = some t) :
    ∀ f, ∀ s ∈ S, rootFuel m f s = none := by
  intro f s hs
  rw [rootFuel, (hS s hs).1]
  simp only [Bool.false_eq_true, if_false]
  exact rootGo_in_closed m hS f s hs

/-! ### Loader lemmas -/

theorem loadPagesFrom_pid0_root :
    ∀ (rows : List (Int × Int × Bool)) (m : Mysql),
      (∀ x, lookupMap m.pages x = some 0 → x ∈ m.roots) →
      ∀ x, lookupMap (loadPagesFrom m rows).pages x = some 0 →
        x ∈ (loadPagesFrom m rows).roots := by
  intro rows
  induction rows with
  | nil => intro m h x hx; exact h x hx
  | cons row rest ih =>
      intro m h x
      show lookupMap (loadPagesFrom (loadPagesStep m row) rest).pages x = some 0 → _
      refine ih (loadPagesStep m row) ?_ x
      intro x2 hx2
      obtain ⟨u, p, b⟩ := row
      simp only [loadPagesStep] at hx2 ⊢
      rw [lookupMap_insert] at hx2
      by_cases hux : u = x2
      · rw [if_pos hux] at hx2
        have hp : p = 0 := Option.some.inj hx2
        have hcond : (b || p == 0) = true := by rw [hp]; simp
        rw [hcond, if_pos rfl, ← hux]
        exact List.mem_append_right _ (List.mem_singleton.mpr rfl)
      · rw [if_neg hux] at hx2
        have hx2' := h x2 hx2
        by_cases hc : (b || p == 0) = true
        · rw [hc, if_pos rfl]
          exact List.mem_append_left _ hx2'
        · rw [eq_false_of_ne_true hc, if_neg (by simp)]
          exact hx2'

theorem loadDomainsFrom_stable :
    ∀ (rows : List (Int × String × Bool)) (m : Mysql) (r : Int) (d : String),
      lookupMap m.domains r = some d →
      lookupMap (loadDomainsFrom m rows).domains r = some d := by
  intro rows
  induction rows with
  | nil => intro m r d h; exact h
  | cons row rest ih =>
      intro m r d h
      show lookupMap (loadDomainsFrom (loadDomainsStep m row) rest).domains r = some d
      refine ih _ r d ?_
      simp only [loadDomainsStep]
      by_cases hs : (lookupMap m.domains row.1).isSome
      · rw [if_pos hs]; exact h
      · rw [if_neg hs]
        have hne : ¬ row.1 = r := by
          intro hc
          rw [hc, h] at hs
          exact hs rfl
        simp only [lookupMap_insert, if_neg hne]
        exact h

theorem loadDomainsFrom_first :
    ∀ (rows : List (Int × String × Bool)) (m : Mysql) (r : Int),
      lookupMap m.domains r = none →
      lookupMap (loadDomainsFrom m rows).domains r =
        (rows.find? (fun row => row.1 == r)).map (fun row => row.2.1) := by
  intro rows
  induction rows with
  | nil => intro m r h; exact h
  | cons row rest ih =>
      intro m r h
      show lookupMap (loadDomainsFrom (loadDomainsStep m row) rest).domains r = _
      by_cases hr : row.1 = r
      · have hskip : ¬ (lookupMap m.domains row.1).isSome = true := by
          rw [hr, h]; simp
        have hstep : (loadDomainsStep m row).domains = insertMap m.domains row.1 row.2.1 := by
          simp only [loadDomainsStep, if_neg hskip]
        have hlook : lookupMap (loadDomainsStep m row).domains r = some row.2.1 := by
          rw [hstep, lookupMap_insert, if_pos hr]
        rw [loadDomainsFrom_stable rest _ r row.2.1 hlook]
        rw [List.find?_cons_of_pos _ (by simpa using hr)]
        rfl
      · have hkeep : lookupMap (loadDomainsStep m row).domains r = none := by
          simp only [loadDomainsStep]
          by_cases hs : (lookupMap m.domains row.1).isSome
          · rw [if_pos hs]; exact h
          · rw [if_neg hs]
            simp only [lookupMap_insert, if_neg hr]
            exact h
        rw [ih _ r hkeep, List.find?_cons_of_neg _ (by simpa using hr)]

/-! ### Query-engine lemmas -/

theorem queryRun_nassoc0 :
    ∀ (rows : List (Int × List String)) (m : Mysql) (acc : List Int),
      (∀ row ∈ rows, row.2 = ([] : List String)) →
      (queryRun m 0 rows acc).2 = some (acc ++ rows.map Prod.fst) ∧
      (∀ u ∈ rows.map Prod.fst,
        lookupMap (queryRun m 0 rows acc).1.assoc u = some []) ∧
      (∀ x, x ∉ rows.map Prod.fst →
        lookupMap (queryRun m 0 rows acc).1.assoc x = lookupMap m.assoc x) := by
  intro rows
  induction rows with
  | nil =>
      intro m acc _
      refine ⟨by simp [queryRun], by simp, fun x _ => rfl⟩
  | cons row rest ih =>
      intro m acc hsh
      have hr2 : row.2 = [] := hsh row (List.mem_cons_self _ _)
      have hguard : row.2.length = 0 := by rw [hr2]; rfl
      have hstep : queryRun m 0 (row :: rest) acc =
          queryRun { m with assoc := insertMap m.assoc row.1 row.2 } 0 rest
            (acc ++ [row.1]) := by
        rw [queryRun, if_pos hguard]
      obtain ⟨ih1, ih2, ih3⟩ :=
        ih { m with assoc := insertMap m.assoc row.1 row.2 } (acc ++ [row.1])
          (fun r hr => hsh r (List.mem_cons_of_mem _ hr))
      refine ⟨?_, ?_, ?_⟩
      · rw [hstep, ih1]; simp
      · intro u hu
        rw [List.map_cons] at hu
        rcases List.mem_cons.mp hu with heq | hur
        · by_cases hin : u ∈ rest.map Prod.fst
          · rw [hstep]; exact ih2 u hin
          · rw [hstep, ih3 u hin]
            simp only [lookupMap_insert, if_pos heq.symm]
            rw [hr2]
        · rw [hstep]; exact ih2 u hur
      · intro x hx
        rw [List.map_cons] at hx
        have hx1 : ¬ row.1 = x := fun hc => hx (by rw [← hc]; exact List.mem_cons_self _ _)
        have hx2 : x ∉ rest.map Prod.fst := fun hc => hx (List.mem_cons_of_mem _ hc)
        rw [hstep, ih3 x hx2]
        simp only [lookupMap_insert, if_neg hx1]

/-! ### Selection-combinator lemmas -/

theorem foldlM_children_eq (m : Mysql) (f : Nat) (qids : List Int) (D : Int → List Int)
    (hD : ∀ q ∈ qids, childrenF m f q [] = some (D q)) :
    ∀ u0, qids.foldlM (fun acc q => childrenF m f q acc) u0 =
      some (u0 ++ (qids.map D).flatten) := by
  induction qids with
  | nil => intro u0; simp [List.foldlM]
  | cons q rest ih =>
      intro u0
      have hq : childrenF m f q u0 = some (u0 ++ D q) := by
        rw [childrenF_append, hD q (List.mem_cons_self _ _)]
        rfl
      rw [List.foldlM_cons, hq]
      show rest.foldlM (fun acc q => childrenF m f q acc) (u0 ++ D q) = _
      rw [ih (fun q2 hq2 => hD q2 (List.mem_cons_of_mem _ hq2)) (u0 ++ D q)]
      simp [List.flatten]

theorem foldlM_roots_eq (m : Mysql) (f : Nat) (qids : List Int) (R : Int → Int)
    (hR : ∀ q ∈ qids, rootFuel m f q = some (R q)) :
    ∀ u0, qids.foldlM (fun acc q => do
        let r ← rootFuel m f q
        some (acc ++ [r])) u0 = some (u0 ++ qids.map R) := by
  induction qids with
  | nil => intro u0; simp [List.foldlM]
  | cons q rest ih =>
      intro u0
      rw [List.foldlM_cons, hR q (List.mem_cons_self _ _)]
      show rest.foldlM _ (u0 ++ [R q]) = _
      rw [ih (fun q2 hq2 => hR q2 (List.mem_cons_of_mem _ hq2)) (u0 ++ [R q])]
      simp

theorem mEx_acyclic : ∀ z, ¬ Reaches mEx z z := by
  refine acyclic_of_rank mEx (fun x => x.toNat) ?_
  intro a b h
  have hm : (a, b) ∈ mEx.pages := mem_of_lookup h
  have he : mEx.pages = [(1, 0), (2, 1), (3, 2)] := rfl
  rw [he] at hm
  simp only [List.mem_cons, List.mem_singleton, Prod.mk.injEq,
    List.not_mem_nil, or_false] at hm
  rcases hm with ⟨rfl, rfl⟩ | ⟨rfl, rfl⟩ | ⟨rfl, rfl⟩ <;> decide

/-! ### Claim theorems -/

/-- C1 counterexample: for domain rows (7,"a",unforced), (7,"b",unforced),
(7,"c",forced) in sort order, the loaded binding for root 7 is "a", not
the claimed "c": `loadDomains` skips every row whose root id is already
bound, ignoring the forced flag (the `&& !forced` test is commented out). -/
theorem c1_domain_forced_counterexample :
    Mysql.domain (loadDomainsFrom initMysql
      [(7, "a", false), (7, "b", false), (7, "c", true)]) 7 = "a" ∧
    ¬ Mysql.domain (loadDomainsFrom initMysql
      [(7, "a", false), (7, "b", false), (7, "c", true)]) 7 = "c" := by
  refine ⟨rfl, ?_⟩
  decide

/-- C1 (amended): when the domain relation yields multiple rows for the
same root id, the first-seen binding always wins — later rows are
skipped whether or not their forced flag is set — so starting from an
empty domain map the loaded binding of r is the first row in sort order
whose root id is r (empty string when there is none). -/
theorem c1_domain_first_wins (rows : List (Int × String × Bool)) (m : Mysql)
    (hm : m.domains = []) (r : Int) :
    Mysql.domain (loadDomainsFrom m rows) r =
      (((rows.find? (fun row => row.1 == r)).map (fun row => row.2.1)).getD "") := by
  rw [Mysql.domain, loadDomainsFrom_first rows m r (by rw [hm]; rfl)]

/-- C1 witness: the amended rule evaluated on the counterexample rows. -/
theorem c1_domain_first_wins_witness :
    Mysql.domain (loadDomainsFrom initMysql
      [(7, "a", false), (7, "b", false), (7, "c", true)]) 7 =
      (((([((7 : Int), "a", false), (7, "b", false), (7, "c", true)]).find?
        (fun row => row.1 == (7 : Int))).map (fun row => row.2.1)).getD "") :=
  c1_domain_first_wins [(7, "a", false), (7, "b", false), (7, "c", true)]
    initMysql rfl 7

/-- C2: the code's root ascent terminates at value r exactly when the
spec's description holds: return the id itself when it is a root,
otherwise repeatedly replace the id by its parent-map entry and return
the first id in the root set, returning the sentinel 0 as soon as the
current id has no parent-map entry. -/
theorem c2_root_matches_spec (m : Mysql) (x r : Int) :
    (∃ f, rootFuel m f x = some r) ↔ RootSpec m x r := by
  constructor
  · rintro ⟨f, hf⟩
    exact rootFuel_spec m hf
  · exact rootSpec_fuel m

/-- C4 counterexample: on the loaded map {0 ↦ 5, 5 ↦ 0} (roots = [5]),
root(7) = 0 (broken chain) but root(0) = 5, so root(root(7)) ≠ root(7):
idempotence fails in the sentinel case when id 0 itself has a parent
entry. (Every ascent terminates on this map.) -/
theorem c4_root_idem_counterexample :
    rootFuel mZero 2 7 = some 0 ∧ rootFuel mZero 2 0 = some 5 ∧
      rootFuel mZero 2 0 ≠ rootFuel mZero 2 7 := by
  decide

/-- C4 (amended): root resolution is idempotent on every non-sentinel
result: whenever root(x) terminates with r ≠ 0, r is itself in the root
set and root(r) = r at any fuel; the sentinel case 0 is excluded, since
a loaded parent entry for id 0 can make root(0) ≠ 0. -/
theorem c4_root_idem_of_ne_zero (m : Mysql) (f g : Nat) (x r : Int)
    (h : rootFuel m f x = some r) (hr : r ≠ 0) :
    rootFuel m g r = some r := by
  rcases rootFuel_result h with rfl | hroot
  · exact absurd rfl hr
  · exact rootFuel_of_isRoot hroot g

/-- C4 witness: on the chain 3 → 2 → 1, root(3) = 1 and root(1) = 1. -/
theorem c4_root_idem_witness : rootFuel mEx 0 1 = some 1 :=
  c4_root_idem_of_ne_zero mEx 5 0 3 1 (by decide) (by decide)

/-- C5: after loading the pages relation, every id whose loaded parent
id is 0 is in the root set (regardless of the row's is-root flag), and
root resolution returns it unchanged at any fuel. -/
theorem c5_pid0_is_root (rows : List (Int × Int × Bool)) (x : Int) (f : Nat)
    (h : lookupMap (loadPages rows).pages x = some 0) :
    (loadPages rows).isRoot x = true ∧ rootFuel (loadPages rows) f x = some x := by
  have hmem : x ∈ (loadPages rows).roots := by
    refine loadPagesFrom_pid0_root rows initMysql ?_ x h
    intro x2 hx2
    simp [initMysql, lookupMap] at hx2
  have hroot : (loadPages rows).isRoot x = true := (isRoot_iff_mem _ x).mpr hmem
  exact ⟨hroot, rootFuel_of_isRoot hroot f⟩

/-- C5 witness: a single row (3, pid 0, flag false) makes 3 a root. -/
theorem c5_pid0_is_root_witness :
    (loadPages [((3 : Int), (0 : Int), false)]).isRoot 3 = true ∧
      rootFuel (loadPages [((3 : Int), (0 : Int), false)]) 5 3 = some 3 :=
  c5_pid0_is_root [(3, 0, false)] 3 5 (by decide)

/-- C6: if a set S of ids is closed under parent steps and contains no
root — a rootless cycle is such a set — then root resolution started at
any id whose ascent enters S never terminates: it returns none at every
fuel bound (the ascent loop has no cycle guard). -/
theorem c6_cycle_diverges (m : Mysql) (S : List Int) (x : Int)
    (hS : ∀ s ∈ S, m.isRoot s = false ∧ ∃ t ∈ S, lookupMap m.pages s = some t)
    (hx : AscentEnters m S x) : ∀ f, rootFuel m f x = none := by
  induction hx with
  | here hs => exact fun f => rootFuel_in_closed m hS f _ hs
  | later hxr hlk hent ih =>
      rename_i x1 y1
      intro f
      rw [rootFuel, hxr]
      simp only [Bool.false_eq_true, if_false]
      cases f with
      | zero => rfl
      | succ g =>
          simp only [rootGo, hlk]
          have hyroot : m.isRoot y1 = false := by
            cases hb : m.isRoot y1
            · rfl
            · have h0 := ih 0
              rw [rootFuel, if_pos hb] at h0
              exact Option.noConfusion h0
          rw [hyroot]
          simp only [Bool.false_eq_true, if_false]
          have hg := ih g
          rw [rootFuel, hyroot] at hg
          simp only [Bool.false_eq_true, if_false] at hg
          exact hg

/-- C6 witness: on the rootless cycle 1 → 2 → 1, root(1) is still
unfinished after 7 iterations. -/
theorem c6_cycle_diverges_witness : rootFuel mCyc 7 1 = none :=
  c6_cycle_diverges mCyc [1, 2] 1 (by decide) (AscentEnters.here (by decide)) 7

/-- C3: over a loaded parent map with distinct keys and no parent-pointer
cycle, a terminating children walk seeded with y returns a list that
contains every id reaching y by one or more parent hops, contains each
element exactly once (no duplicates), and never contains y itself. -/
theorem c3_descendants_complete (m : Mysql) (f : Nat) (y : Int) (L : List Int)
    (hkeys : (m.pages.map Prod.fst).Nodup) (hacyc : ∀ z, ¬ Reaches m z z)
    (hrun : childrenF m f y [] = some L) :
    (∀ x, Reaches m x y → x ∈ L) ∧ L.Nodup ∧ y ∉ L := by
  refine ⟨?_, ?_, ?_⟩
  · intro x hx
    exact (children_complete m hx f L hrun).1
  · cases f with
    | zero => simp [childrenF] at hrun
    | succ g =>
        exact childrenL_nodup m hkeys hacyc g m.pages y L (List.Sublist.refl _) hrun
  · intro hy
    exact hacyc y (childrenF_sound m hkeys hrun y hy)

/-- C3 witness: on the chain 3 → 2 → 1, descendants(1) = [2, 3]:
it contains 3 (which reaches 1 in two hops), has no duplicates, and
does not contain 1. -/
theorem c3_descendants_complete_witness :
    3 ∈ ([2, 3] : List Int) ∧ ([2, 3] : List Int).Nodup ∧
      (1 : Int) ∉ ([2, 3] : List Int) := by
  obtain ⟨h1, h2, h3⟩ :=
    c3_descendants_complete mEx 10 1 [2, 3] (by decide) mEx_acyclic (by decide)
  refine ⟨h1 3 ?_, h2, h3⟩
  exact Reaches.cons (show lookupMap mEx.pages 3 = some 2 by decide)
    (Reaches.single (show lookupMap mEx.pages 2 = some 1 by decide))

/-- C7: with neither transform flag set and both an explicit id (> 0)
and query ids supplied, the final sequence is exactly the query ids:
the assignment `uids = qids` replaces the accumulated explicit id
rather than appending to it. -/
theorem c7_identity_replaces (m : Mysql) (f : Nat) (pid : Int) (qids : List Int)
    (hp : pid > 0) :
    selection m f pid (some qids) false false = some qids := by
  simp [selection, combineExplicit, combineQuery, hp]

/-- C7 witness: explicit id 7 plus query ids [1, 2] yield [1, 2]. -/
theorem c7_identity_replaces_witness :
    selection mEx 0 7 (some [1, 2]) false false = some [1, 2] :=
  c7_identity_replaces mEx 0 7 [1, 2] (by decide)

/-- C8: with both transform flags set, both transforms run on each seed:
the final sequence is the explicit id's descendants, then its root,
then the concatenated descendants of each query id in order, then the
roots of each query id in order. -/
theorem c8_both_flags_concat (m : Mysql) (f : Nat) (pid : Int) (qids : List Int)
    (d0 : List Int) (r0 : Int) (D : Int → List Int) (R : Int → Int)
    (hp : pid > 0)
    (hd0 : childrenF m f pid [] = some d0)
    (hr0 : rootFuel m f pid = some r0)
    (hD : ∀ q ∈ qids, childrenF m f q [] = some (D q))
    (hR : ∀ q ∈ qids, rootFuel m f q = some (R q)) :
    selection m f pid (some qids) true true =
      some (((d0 ++ [r0]) ++ (qids.map D).flatten) ++ qids.map R) := by
  have hce : combineExplicit m f pid true true = some (d0 ++ [r0]) := by
    simp [combineExplicit, hp, hd0, hr0]
  have hcq : combineQuery m f (d0 ++ [r0]) qids true true =
      some (((d0 ++ [r0]) ++ (qids.map D).flatten) ++ qids.map R) := by
    have h1 := foldlM_children_eq m f qids D hD (d0 ++ [r0])
    have h2 := foldlM_roots_eq m f qids R hR ((d0 ++ [r0]) ++ (qids.map D).flatten)
    simp at h1 h2
    simp [combineQuery, h1, h2]
  simp [selection, hce, hcq]

/-- C8 witness: explicit id 1 (descendants [2, 3], root 1) and query id
3 (no descendants, root 1) yield [2, 3, 1, 1]. -/
theorem c8_both_flags_concat_witness :
    selection mEx 10 1 (some [3]) true true = some [2, 3, 1, 1] := by
  have h := c8_both_flags_concat mEx 10 1 [3] [2, 3] 1 (fun _ => []) (fun _ => 1)
    (by decide) (by decide) (by decide) (by decide) (by decide)
  simpa using h

/-- C9 counterexample: the n = 0 form of the ad-hoc query is not free of
side effects on the per-id associated data: a prior query recorded
["x", "y"] for id 5, and a later n = 0 query returning id 5 resets its
entry to the empty sequence. -/
theorem c9_nassoc0_counterexample :
    lookupMap ((queryRun ((queryRun initMysql 2 [(5, ["x", "y"])] []).1)
      0 [(5, [])] []).1).assoc 5 ≠
    lookupMap ((queryRun initMysql 2 [(5, ["x", "y"])] []).1).assoc 5 := by
  decide

/-- C9 (amended): an n = 0 query returns the bare id sequence in row
order, but it does write the associated-data state: every returned id's
entry is set to the empty sequence (overwriting any previous value),
while ids the query does not return keep their entries; in particular,
from the run's initial empty state the observable per-id data stays
empty. -/
theorem c9_nassoc0_bare_ids (rows : List (Int × List String)) (m : Mysql)
    (acc : List Int) (hsh : ∀ row ∈ rows, row.2 = ([] : List String)) :
    (queryRun m 0 rows acc).2 = some (acc ++ rows.map Prod.fst) ∧
    (∀ u ∈ rows.map Prod.fst,
      lookupMap (queryRun m 0 rows acc).1.assoc u = some []) ∧
    (∀ x, x ∉ rows.map Prod.fst →
      lookupMap (queryRun m 0 rows acc).1.assoc x = lookupMap m.assoc x) :=
  queryRun_nassoc0 rows m acc hsh

/-- C9 witness: an n = 0 query over rows for ids 5 and 6 returns [5, 6]
and records the empty sequence for id 5. -/
theorem c9_nassoc0_bare_ids_witness :
    (queryRun initMysql 0 [((5 : Int), ([] : List String)), (6, [])] []).2 =
        some [5, 6] ∧
      lookupMap (queryRun initMysql 0
        [((5 : Int), ([] : List String)), (6, [])] []).1.assoc 5 = some [] := by
  obtain ⟨h1, h2, h3⟩ :=
    c9_nassoc0_bare_ids [(5, []), (6, [])] initMysql [] (by decide)
  exact ⟨by simpa using h1, h2 5 (by decide)⟩

/-- C10: in URL mode with n > 0, an emitted id with no associated-data
entry reuses the shared fields buffer: only field 0 (the quoted URL) is
overwritten, so the printed row's n associated fields are exactly the
buffer's previous contents (the prior row's values, or empty strings if
none were ever written). -/
theorem c10_stale_fields (m : Mysql) (f nassoc : Nat) (fields out : List String)
    (uid rid : Int) (hr : rootFuel m f uid = some rid)
    (hd : ¬ m.domain rid = "") (hn : 0 < nassoc)
    (ha : lookupMap m.assoc uid = none) :
    urlStep m f nassoc (fields, out) uid =
      some (fields.set 0 ("\"" ++ urlFor (m.domain rid) uid ++ "\""),
        out ++ [joinComma (fields.set 0 ("\"" ++ urlFor (m.domain rid) uid ++ "\""))]) := by
  simp only [urlStep, hr, ha]
  rw [if_neg hd, if_pos hn]
  simp

/-- C10 witness: uid 2 (root 1, domain bound, no associated entry)
printed after a row that filled the buffer with the quoted "x" keeps
that stale quoted "x" as its associated field. -/
theorem c10_stale_fields_witness :
    urlStep mOut 3 1 (["z", "\"x\""], []) 2 =
      some ((["z", "\"x\""].set 0 ("\"" ++ urlFor (Mysql.domain mOut 1) 2 ++ "\"")),
        [joinComma (["z", "\"x\""].set 0
          ("\"" ++ urlFor (Mysql.domain mOut 1) 2 ++ "\""))]) :=
  c10_stale_fields mOut 3 1 ["z", "\"x\""] [] 2 1 (by decide) (by decide)
    (by decide) (by decide)
